import Mathlib

/-!
# TripSplitter — verification of the balance / settlement core

A shallow embedding of the TripSplitter expense-sharing core:

* the balance engine of `useExpenses` (`personBalances`, `groupBalances`),
* the eligibility classifier embedded in `personBalances`,
* the settlement planner of `SettlementSummary`,
* the roster operations `addParticipant` / `removeParticipant` of
  `useParticipants`.

JavaScript `number` arithmetic is modelled with exact rationals (`ℚ`);
JavaScript objects used as string-keyed records are modelled as total
functions `String → _` (the engine initialises every record with exactly
the participant names as keys and never adds keys afterwards, so the JS
key-membership test `m in transferDelta` coincides with membership in the
participant list).
-/

namespace TripSplitter

/-- An expense record (`types/expense.ts`).  The fields that the balance
engine never reads (date, attachments) are omitted. -/
structure Expense where
  id : String
  amount : ℚ
  description : String
  category : String
  paidBy : String
  deriving Repr, DecidableEq

/-- A payment record (`types/expense.ts`), again without the fields the
engine never reads. -/
structure Payment where
  id : String
  amount : ℚ
  category : String
  fromEntity : String
  toEntity : String
  deriving Repr, DecidableEq

/-- A computed balance row (`types/expense.ts`). -/
structure Balance where
  person : String
  totalPaid : ℚ
  totalOwed : ℚ
  netBalance : ℚ
  totalPaymentsMade : ℚ
  totalPaymentsReceived : ℚ
  deriving Repr, DecidableEq

/-- `useExpenses.ts` (`getMembers`): expand an entity name to its member
list; a missing or empty entry falls back to the singleton of the entity
name itself.

```js
const getMembers = (entity) => {
  const members = entityMembers[entity];
  if (members && members.length > 0) return members;
  return [entity];
};
``` -/
def getMembers (entityMembers : String → Option (List String)) (entity : String) :
    List String :=
  match entityMembers entity with
  | some members => if members.length > 0 then members else [entity]
  | none => [entity]

/-- `useExpenses.ts` (`personBalances`, eligibility block): which persons
share an expense of the given category.  Car categories filter by car
assignment, `"drinks"` filters by the drinks flag, anything else takes all
participants; an empty filter result falls back to all participants. -/
def eligibleFor (participants : List String) (participantCars : String → Option String)
    (participantDrinks : String → Bool) (category : String) : List String :=
  let eligible :=
    if category = "eric-car" ∨ category = "leo-car" then
      participants.filter (fun p => participantCars p = some category)
    else if category = "drinks" then
      participants.filter (fun p => participantDrinks p)
    else
      participants
  if eligible.length = 0 then participants else eligible

/-- `useExpenses.ts` (`personBalances`): the `owedByPerson` record after
folding all expenses, as a function of the person name.  Each eligible
person accrues `expense.amount / eligible.length`; `count` reflects that
the JS loop adds the share once per occurrence in the eligible list. -/
def owedByPerson (participants : List String) (participantCars : String → Option String)
    (participantDrinks : String → Bool) (expenses : List Expense) : String → ℚ :=
  expenses.foldl
    (fun acc e =>
      let eligible := eligibleFor participants participantCars participantDrinks e.category
      let share := e.amount / (eligible.length : ℚ)
      fun p => acc p + (eligible.count p : ℚ) * share)
    (fun _ => 0)

/-- The three payment-attribution records of `useExpenses.ts`
(`transferDelta`, `paymentsMade`, `paymentsReceived`). -/
structure PayState where
  transferDelta : String → ℚ
  paymentsMade : String → ℚ
  paymentsReceived : String → ℚ

/-- One step of the payment loop of `useExpenses.ts` (`personBalances`):
expand `from`/`to`, keep only known participants (the JS
`m in transferDelta` test), split the amount evenly over each side, guard
an empty side with a zero share. -/
def payStep (participants : List String) (entityMembers : String → Option (List String))
    (st : PayState) (payment : Payment) : PayState :=
  let fromMembers := (getMembers entityMembers payment.fromEntity).filter
    (fun m => m ∈ participants)
  let toMembers := (getMembers entityMembers payment.toEntity).filter
    (fun m => m ∈ participants)
  let fromShare := if fromMembers.length > 0 then payment.amount / (fromMembers.length : ℚ) else 0
  let toShare := if toMembers.length > 0 then payment.amount / (toMembers.length : ℚ) else 0
  { transferDelta := fun p =>
      st.transferDelta p + (fromMembers.count p : ℚ) * fromShare
        - (toMembers.count p : ℚ) * toShare
    paymentsMade := fun p => st.paymentsMade p + (fromMembers.count p : ℚ) * fromShare
    paymentsReceived := fun p => st.paymentsReceived p + (toMembers.count p : ℚ) * toShare }

/-- The payment-attribution records after folding all payments. -/
def payFold (participants : List String) (entityMembers : String → Option (List String))
    (payments : List Payment) : PayState :=
  payments.foldl (payStep participants entityMembers)
    ⟨fun _ => 0, fun _ => 0, fun _ => 0⟩

/-- `useExpenses.ts` (`personBalances`, `totalPaid`): the sum, over the
expenses whose expanded `paidBy` list contains the person, of the amount
divided by the number of `paidBy` members that are known participants (zero
share if none are). -/
def totalPaidOf (participants : List String) (entityMembers : String → Option (List String))
    (expenses : List Expense) (person : String) : ℚ :=
  (expenses.filter (fun e => person ∈ getMembers entityMembers e.paidBy)).foldl
    (fun sum e =>
      let members := (getMembers entityMembers e.paidBy).filter (fun m => m ∈ participants)
      let share := if members.length > 0 then e.amount / (members.length : ℚ) else 0
      sum + share)
    0

/-- `useExpenses.ts` (`personBalances`): the person-level balance list.
Returns `[]` when there are no participants, otherwise one `Balance` per
participant, in roster order. -/
def personBalances (participants : List String) (participantCars : String → Option String)
    (participantDrinks : String → Bool) (entityMembers : String → Option (List String))
    (expenses : List Expense) (payments : List Payment) : List Balance :=
  if participants.length = 0 then []
  else
    let owed := owedByPerson participants participantCars participantDrinks expenses
    let st := payFold participants entityMembers payments
    participants.map (fun person =>
      let totalPaid := totalPaidOf participants entityMembers expenses person
      let totalOwed := owed person
      let adjustment := st.transferDelta person
      { person := person
        totalPaid := totalPaid
        totalOwed := totalOwed
        netBalance := totalPaid - totalOwed + adjustment
        totalPaymentsMade := st.paymentsMade person
        totalPaymentsReceived := st.paymentsReceived person })

/-- `useExpenses.ts` (`groupBalances`, `participantMap`): look a person's
balance up among the person-level balances.  A JS object built by forward
iteration keeps the last row written for a name, hence the reversed
search. -/
def lookupBalance (personBals : List Balance) (name : String) : Option Balance :=
  personBals.reverse.find? (fun b => b.person == name)

/-- One step of the member-aggregation `reduce` of `useExpenses.ts`
(`groupBalances`): a member without a person-level balance contributes
nothing. -/
def aggStep (personBals : List Balance) (acc : Balance) (m : String) : Balance :=
  match lookupBalance personBals m with
  | some b =>
      { acc with
        totalPaid := acc.totalPaid + b.totalPaid
        totalOwed := acc.totalOwed + b.totalOwed
        netBalance := acc.netBalance + b.netBalance
        totalPaymentsMade := acc.totalPaymentsMade + b.totalPaymentsMade
        totalPaymentsReceived := acc.totalPaymentsReceived + b.totalPaymentsReceived }
  | none => acc

/-- `useExpenses.ts` (`groupBalances`): keep the entities whose member
list exists and has more than one member, and sum the five balance fields
of their members' person-level balances. -/
def groupBalances (entities : List String) (entityMembers : String → Option (List String))
    (personBals : List Balance) : List Balance :=
  (entities.filter (fun entity =>
      match entityMembers entity with
      | some members => members.length > 1
      | none => false)).map
    (fun entity =>
      let members := (entityMembers entity).getD []
      members.foldl (aggStep personBals)
        { person := entity, totalPaid := 0, totalOwed := 0, netBalance := 0
          totalPaymentsMade := 0, totalPaymentsReceived := 0 })

/-! ## Settlement planner (`SettlementSummary.tsx`) -/

/-- A settlement transfer (`SettlementSummary.tsx`): `{from, to, amount}`. -/
structure Transfer where
  fromPerson : String
  toPerson : String
  amount : ℚ
  deriving Repr, DecidableEq

/-- The JS `Array.prototype.sort` is stable; a stable insertion by a strict
`lt` comparator reproduces it: an element moves past exactly the earlier
elements it is strictly smaller than. -/
def insertStable (lt : Balance → Balance → Bool) (x : Balance) :
    List Balance → List Balance
  | [] => [x]
  | y :: ys => if lt x y then x :: y :: ys else y :: insertStable lt x ys

/-- Stable sort by a strict comparator, modelling the JS stable sort. -/
def sortStable (lt : Balance → Balance → Bool) (l : List Balance) : List Balance :=
  l.foldl (fun acc x => insertStable lt x acc) []

/-- Inner creditor loop of `SettlementSummary.tsx` for one debtor: walk the
creditor list in order, stopping when the remaining debt drops below
`0.01`, skipping creditors with credit below `0.01`, and otherwise
transferring `min(debt, credit)` guarded by the `amount >= 0.01` check.
Returns the updated creditor list, the emitted transfers (in order), and
the remaining debt. -/
def runCreditors (debtorName : String) (debt : ℚ) :
    List Balance → List Balance × List Transfer × ℚ
  | [] => ([], [], debt)
  | c :: cs =>
    if debt < 1/100 then (c :: cs, [], debt)
    else if c.netBalance < 1/100 then
      let (cs', ts, debt') := runCreditors debtorName debt cs
      (c :: cs', ts, debt')
    else
      let amount := min debt c.netBalance
      if 1/100 ≤ amount then
        let (cs', ts, debt') := runCreditors debtorName (debt - amount) cs
        ({ c with netBalance := c.netBalance - amount } :: cs',
          ⟨debtorName, c.person, amount⟩ :: ts, debt')
      else
        let (cs', ts, debt') := runCreditors debtorName debt cs
        (c :: cs', ts, debt')

/-- Outer debtor loop of `SettlementSummary.tsx`: each debtor starts from
`|netBalance|` of debt and consumes the shared (mutable, copied) creditor
list; the emitted transfer batches are concatenated in debtor order. -/
def runDebtors : List Balance → List Balance → List Balance × List Transfer
  | [], cs => (cs, [])
  | d :: ds, cs =>
    let (cs', ts, _) := runCreditors d.person |d.netBalance| cs
    let (cs'', ts') := runDebtors ds cs'
    (cs'', ts ++ ts')

/-- `SettlementSummary.tsx` (settlement computation): partition the
balances into debtors (`netBalance < -0.01`) and creditors
(`netBalance > 0.01`), working on per-record copies, sort debtors
ascending and creditors descending by `netBalance`, and run the greedy
matching.  The input balance list is only read, never written. -/
def planSettlements (balances : List Balance) : List Transfer :=
  let debtors := sortStable (fun a b => a.netBalance < b.netBalance)
    (balances.filter (fun b => b.netBalance < -(1/100)))
  let creditors := sortStable (fun a b => b.netBalance < a.netBalance)
    (balances.filter (fun b => b.netBalance > 1/100))
  (runDebtors debtors creditors).2

/-- The settlement computation with the fate of the input made explicit:
the source builds `debtors`/`creditors` from copies (`{...b}`) and never
assigns into `balances`, so the run returns the input list unchanged
alongside the transfers. -/
def planSettlementsRun (balances : List Balance) : List Transfer × List Balance :=
  (planSettlements balances, balances)

/-! ## Roster operations (`useParticipants.ts`) -/

/-- A stored participant (`useParticipants.ts`, `StoredParticipant`). -/
structure Participant where
  name : String
  car : Option String
  finished : Bool
  drinks : Bool
  deriving Repr, DecidableEq

/-- A participant group (`useParticipants.ts`, `ParticipantGroup`). -/
structure ParticipantGroup where
  id : String
  name : String
  members : List String
  deriving Repr, DecidableEq

/-- Model of the JS `String.prototype.trim`: drop whitespace from both
ends (structurally recursive so that concrete instances compute). -/
def trimName (s : String) : String :=
  ⟨((s.data.dropWhile Char.isWhitespace).reverse.dropWhile Char.isWhitespace).reverse⟩

/-- Model of the JS `String.prototype.toLowerCase` (ASCII lowering; the
non-ASCII letters appearing in the repository's names are already lower
case where compared). -/
def lowerName (s : String) : String :=
  ⟨s.data.map Char.toLower⟩

/-- `useParticipants.ts` (`inferDefaultCar`). -/
def inferDefaultCar (name : String) : Option String :=
  let lower := lowerName name
  if lower = "eric" then some "eric-car"
  else if lower = "léo" then some "leo-car"
  else none

/-- `useParticipants.ts` (`addParticipant`): trims the name, returns
`false` only for an empty trimmed name; otherwise returns `true` and
appends a new participant unless a case-insensitive duplicate exists (in
which case the roster is left unchanged — the function still returns
`true`). -/
def addParticipant (prev : List Participant) (name : String) (car : Option String) :
    Bool × List Participant :=
  let trimmedName := trimName name
  if trimmedName = "" then (false, prev)
  else
    let effectiveCar := match car with
      | some c => some c
      | none => inferDefaultCar trimmedName
    let updated :=
      if prev.any (fun p => lowerName p.name == lowerName trimmedName) then prev
      else prev ++ [{ name := trimmedName, car := effectiveCar, finished := false,
                      drinks := true }]
    (true, updated)

/-- `useParticipants.ts` (`removeParticipant`): the participant list keeps
at least 2 entries (the removal is skipped below that), while the group
update — which runs unconditionally — strips the name from every member
list and keeps exactly the groups left with a non-empty member list. -/
def removeParticipant (participants : List Participant)
    (groups : List ParticipantGroup) (name : String) :
    List Participant × List ParticipantGroup :=
  let participants' :=
    if participants.length ≤ 2 then participants
    else participants.filter (fun p => p.name ≠ name)
  let groups' :=
    (groups.map (fun g => { g with members := g.members.filter (fun m => m ≠ name) })).filter
      (fun g => g.members.length > 0)
  (participants', groups')

/-! ## Multi-payer payment apportionment

The spec (§3, scenario 5) describes the splitting of one logical
multi-payer payment into per-payer `Payment` rows.  No file under the
provided sources implements it — the `AddPaymentDialog.tsx` present here
submits a single row with a single `from` entity — so the apportionment is
modelled from the spec. -/

/-- Modelled from the spec: the integer-cent apportionment used when a
multi-payer payment is recorded (missing from the provided sources; spec
§3: `base = floor(totalCents/count)`, `remainder = totalCents mod count`,
first `remainder` payers get `base+1` cents, rest get `base`). -/
def splitPaymentCents (totalCents count : ℕ) : List ℕ :=
  let base := totalCents / count
  let remainder := totalCents % count
  List.replicate remainder (base + 1) ++ List.replicate (count - remainder) base

/-- Modelled from the spec: the N independent `Payment` rows recorded for
one logical multi-payer payment — one row per payer, carrying that payer's
cent share as a currency amount. -/
def multiPayerRows (payers : List String) (toEntity : String) (category : String)
    (totalCents : ℕ) : List Payment :=
  (payers.zip (splitPaymentCents totalCents payers.length)).map
    (fun pc => { id := "", amount := (pc.2 : ℚ) / 100, category := category,
                 fromEntity := pc.1, toEntity := toEntity })

/-! ## C10 — `addParticipant` return value -/

/-- C10: `addParticipant(name)` returns `true` exactly when the trimmed
name is non-empty — including when a case-insensitive duplicate already
exists, in which case the roster is left unchanged — so the boolean result
does not indicate whether a participant was actually added. -/
theorem addParticipant_result_spec (prev : List Participant) (name : String)
    (car : Option String) :
    ((addParticipant prev name car).1 = true ↔ trimName name ≠ "")
    ∧ (trimName name ≠ "" →
        prev.any (fun p => lowerName p.name == lowerName (trimName name)) = true →
        (addParticipant prev name car).2 = prev) := by
  unfold addParticipant
  by_cases h : trimName name = "" <;> simp [h]

/-- Witness for C10 at a concrete roster: the name `" ANN "` trims to a
non-empty duplicate of `"Ann"`, the call returns `true`, and the roster is
unchanged. -/
theorem addParticipant_result_spec_witness :
    (trimName " ANN " ≠ "")
    ∧ (addParticipant [⟨"Ann", none, false, true⟩] " ANN " none).2
        = [⟨"Ann", none, false, true⟩]
    ∧ (addParticipant [⟨"Ann", none, false, true⟩] " ANN " none).1 = true :=
  ⟨by decide,
   (addParticipant_result_spec [⟨"Ann", none, false, true⟩] " ANN " none).2
     (by decide) (by decide),
   ((addParticipant_result_spec [⟨"Ann", none, false, true⟩] " ANN " none).1).mpr
     (by decide)⟩

/-! ## C7 — eligibility classification and fallback -/

/-- C7: with a non-empty person list the eligible set is never empty; car
categories select the persons assigned to that car, `"drinks"` selects the
opt-ins, any other category selects everyone, and an empty filtered set
falls back to all persons. -/
theorem eligibleFor_spec (participants : List String)
    (participantCars : String → Option String) (participantDrinks : String → Bool)
    (category : String) (h : participants ≠ []) :
    eligibleFor participants participantCars participantDrinks category ≠ []
    ∧ ((category = "eric-car" ∨ category = "leo-car") →
        eligibleFor participants participantCars participantDrinks category =
          (if participants.filter (fun p => participantCars p = some category) = []
           then participants
           else participants.filter (fun p => participantCars p = some category)))
    ∧ (category = "drinks" →
        eligibleFor participants participantCars participantDrinks category =
          (if participants.filter (fun p => participantDrinks p) = []
           then participants
           else participants.filter (fun p => participantDrinks p)))
    ∧ (¬ (category = "eric-car" ∨ category = "leo-car") → category ≠ "drinks" →
        eligibleFor participants participantCars participantDrinks category =
          participants) := by
  have hlen : ∀ l : List String,
      (if l.length = 0 then participants else l) = (if l = [] then participants else l) :=
    fun l => if_congr List.length_eq_zero rfl rfl
  have hne : ∀ l : List String, (if l = [] then participants else l) ≠ [] := by
    intro l; split
    · exact h
    · assumption
  refine ⟨?_, ?_, ?_, ?_⟩
  · unfold eligibleFor
    by_cases hcar : category = "eric-car" ∨ category = "leo-car"
    · simp only [if_pos hcar]; rw [hlen]; exact hne _
    · by_cases hdr : category = "drinks"
      · simp only [if_neg hcar, if_pos hdr]; rw [hlen]; exact hne _
      · simp only [if_neg hcar, if_neg hdr]; rw [hlen]; exact hne _
  · intro hcar; unfold eligibleFor; simp only [if_pos hcar]; exact hlen _
  · intro hdr
    have hcar : ¬ (category = "eric-car" ∨ category = "leo-car") := by
      subst hdr; decide
    unfold eligibleFor; simp only [if_neg hcar, if_pos hdr]; exact hlen _
  · intro hcar hdr
    unfold eligibleFor; simp only [if_neg hcar, if_neg hdr]
    rw [hlen, ite_self]

/-- Witness for C7 (spec scenario 3): a car expense with no one assigned
to `eric-car` is split across both persons. -/
theorem eligibleFor_spec_witness :
    (["Eric", "Léo"] : List String) ≠ []
    ∧ eligibleFor ["Eric", "Léo"] (fun _ => none) (fun _ => true) "eric-car" ≠ []
    ∧ eligibleFor ["Eric", "Léo"] (fun _ => none) (fun _ => true) "eric-car"
        = ["Eric", "Léo"] := by
  refine ⟨by decide, (eligibleFor_spec _ _ _ _ (by decide)).1, ?_⟩
  have h := (eligibleFor_spec ["Eric", "Léo"] (fun _ => none) (fun _ => true)
    "eric-car" (by decide)).2.1 (Or.inl rfl)
  simpa using h

/-! ## C4 — multi-payer integer-cent apportionment (modelled from spec) -/

/-- C4: splitting `totalCents` over `count > 0` payers produces one cent
amount per payer, summing back to `totalCents`, where payer `i` gets
`base + 1` cents for `i < totalCents % count` and `base` cents otherwise
(`base = totalCents / count`); each payer yields an independent `Payment`
row carrying its share, and `100` cents over `3` payers gives
`[34, 33, 33]`. -/
theorem splitPaymentCents_spec (totalCents count : ℕ) (h : 0 < count) :
    (splitPaymentCents totalCents count).length = count
    ∧ (splitPaymentCents totalCents count).sum = totalCents
    ∧ (∀ i : ℕ, i < count →
        (splitPaymentCents totalCents count).getD i 0 =
          totalCents / count + (if i < totalCents % count then 1 else 0))
    ∧ (∀ (payers : List String) (toEntity category : String),
        payers.length = count →
        (multiPayerRows payers toEntity category totalCents).map Payment.amount =
          (splitPaymentCents totalCents count).map (fun (c : ℕ) => (c : ℚ) / 100)
        ∧ (multiPayerRows payers toEntity category totalCents).map Payment.fromEntity
            = payers)
    ∧ splitPaymentCents 100 3 = [34, 33, 33] := by
  have hr : totalCents % count < count := Nat.mod_lt _ h
  have hlen : (splitPaymentCents totalCents count).length = count := by
    unfold splitPaymentCents
    simp only [List.length_append, List.length_replicate]
    omega
  refine ⟨hlen, ?_, ?_, ?_, by decide⟩
  · unfold splitPaymentCents
    simp only [List.sum_append, List.sum_replicate, smul_eq_mul]
    have h1 := Nat.div_add_mod totalCents count
    have h2 : count - totalCents % count + totalCents % count = count :=
      Nat.sub_add_cancel hr.le
    nlinarith [h1, h2]
  · intro i hi
    unfold splitPaymentCents
    by_cases hir : i < totalCents % count
    · rw [List.getD_append _ _ _ _ (by simpa [List.length_replicate] using hir)]
      simp [List.getD_eq_getElem?_getD, List.getElem?_replicate, hir]
    · rw [List.getD_append_right _ _ _ _
        (by simpa [List.length_replicate] using Nat.le_of_not_lt hir)]
      have hlt : i - (totalCents % count) < count - totalCents % count := by omega
      simp [List.length_replicate, List.getD_eq_getElem?_getD, List.getElem?_replicate,
        hlt, hir]
  · intro payers toEntity category hp
    subst hp
    have hple : payers.length ≤ (splitPaymentCents totalCents payers.length).length := by
      rw [hlen]
    have hsle : (splitPaymentCents totalCents payers.length).length ≤ payers.length := by
      rw [hlen]
    have hsnd : (payers.zip (splitPaymentCents totalCents payers.length)).map Prod.snd =
        splitPaymentCents totalCents payers.length := List.map_snd_zip _ _ hsle
    have hfst : (payers.zip (splitPaymentCents totalCents payers.length)).map Prod.fst =
        payers := List.map_fst_zip _ _ hple
    unfold multiPayerRows
    constructor
    · rw [List.map_map]
      have hcomp : ((fun c => ((c : ℕ) : ℚ) / 100) ∘ (Prod.snd (α := String))) =
          (Payment.amount ∘ fun pc : String × ℕ =>
            ({ id := "", amount := (pc.2 : ℚ) / 100, category := category,
               fromEntity := pc.1, toEntity := toEntity } : Payment)) := rfl
      rw [← hcomp, ← List.map_map, hsnd]
    · rw [List.map_map]
      have hcomp : (Prod.fst (α := String) (β := ℕ)) =
          (Payment.fromEntity ∘ fun pc : String × ℕ =>
            ({ id := "", amount := (pc.2 : ℚ) / 100, category := category,
               fromEntity := pc.1, toEntity := toEntity } : Payment)) := rfl
      rw [← hcomp, hfst]

/-- Witness for C4: 100 cents over 3 payers. -/
theorem splitPaymentCents_spec_witness :
    0 < 3
    ∧ splitPaymentCents 100 3 = [34, 33, 33]
    ∧ (splitPaymentCents 100 3).sum = 100
    ∧ (multiPayerRows ["x", "y", "z"] "w" "general" 100).map Payment.fromEntity
        = ["x", "y", "z"] :=
  ⟨by decide, (splitPaymentCents_spec 100 3 (by decide)).2.2.2.2,
   (splitPaymentCents_spec 100 3 (by decide)).2.1,
   ((splitPaymentCents_spec 100 3 (by decide)).2.2.2.1 ["x", "y", "z"] "w" "general"
     (by decide)).2⟩

/-! ## C3 — participant removal and group pruning -/

/-- C3 counterexample: with 3 participants the removal of `"a"` proceeds,
yet the 2-member group `"G" = {a, b}` is *not* removed when its membership
drops to 1 — the source prunes a group only when its member list becomes
empty (`members.length > 0`), so a 1-member group survives, contradicting
the claimed ≥2-member invariant. -/
theorem removeParticipant_counterexample :
    2 < ([⟨"a", none, false, true⟩, ⟨"b", none, false, true⟩,
          ⟨"c", none, false, true⟩] : List Participant).length
    ∧ (removeParticipant
        [⟨"a", none, false, true⟩, ⟨"b", none, false, true⟩, ⟨"c", none, false, true⟩]
        [⟨"g1", "G", ["a", "b"]⟩] "a").2 = [⟨"g1", "G", ["b"]⟩]
    ∧ ¬ (∀ g ∈ (removeParticipant
        [⟨"a", none, false, true⟩, ⟨"b", none, false, true⟩, ⟨"c", none, false, true⟩]
        [⟨"g1", "G", ["a", "b"]⟩] "a").2, 2 ≤ g.members.length) := by
  refine ⟨by decide, by decide, ?_⟩
  intro hall
  have := hall ⟨"g1", "G", ["b"]⟩ (by decide)
  simp at this

/-- C3 amended: a removal that is allowed to proceed strips the person
from the roster and from every group's member list, but a group is removed
only when its member list becomes empty; every surviving group is
non-empty (not necessarily of size ≥ 2), and surviving groups are exactly
the original groups whose stripped member list is non-empty. -/
theorem removeParticipant_spec (participants : List Participant)
    (groups : List ParticipantGroup) (name : String)
    (h : 2 < participants.length) :
    (∀ p ∈ (removeParticipant participants groups name).1, p.name ≠ name)
    ∧ (∀ g' ∈ (removeParticipant participants groups name).2,
        name ∉ g'.members ∧ g'.members ≠ []
        ∧ ∃ g ∈ groups, g.id = g'.id ∧ g.name = g'.name
            ∧ g'.members = g.members.filter (fun m => m ≠ name))
    ∧ (∀ g ∈ groups, g.members.filter (fun m => m ≠ name) ≠ [] →
        ∃ g' ∈ (removeParticipant participants groups name).2,
          g'.id = g.id ∧ g'.members = g.members.filter (fun m => m ≠ name)) := by
  unfold removeParticipant
  have hgt : ¬ participants.length ≤ 2 := by omega
  refine ⟨?_, ?_, ?_⟩
  · intro p hp
    simp only [if_neg hgt, List.mem_filter] at hp
    simpa using hp.2
  · intro g' hg'
    simp only [List.mem_filter, List.mem_map] at hg'
    obtain ⟨⟨g, hg, hmap⟩, hlen⟩ := hg'
    subst hmap
    refine ⟨?_, ?_, g, hg, rfl, rfl, rfl⟩
    · intro hmem
      have := (List.mem_filter.mp hmem).2
      simp at this
    · intro hnil
      rw [hnil] at hlen
      simp at hlen
  · intro g hg hne
    refine ⟨{ g with members := g.members.filter (fun m => m ≠ name) }, ?_, rfl, rfl⟩
    simp only [List.mem_filter, List.mem_map]
    exact ⟨⟨g, hg, rfl⟩, by simpa using List.length_pos.mpr hne⟩

/-- Witness for C3 amended at a concrete roster. -/
theorem removeParticipant_spec_witness :
    2 < ([⟨"a", none, false, true⟩, ⟨"b", none, false, true⟩,
          ⟨"c", none, false, true⟩] : List Participant).length
    ∧ ∀ g' ∈ (removeParticipant
        [⟨"a", none, false, true⟩, ⟨"b", none, false, true⟩, ⟨"c", none, false, true⟩]
        [⟨"g1", "G", ["a", "b"]⟩] "a").2,
        "a" ∉ g'.members ∧ g'.members ≠ []
        ∧ ∃ g ∈ ([⟨"g1", "G", ["a", "b"]⟩] : List ParticipantGroup),
            g.id = g'.id ∧ g.name = g'.name
            ∧ g'.members = g.members.filter (fun m => m ≠ "a") :=
  ⟨by decide,
   (removeParticipant_spec
     [⟨"a", none, false, true⟩, ⟨"b", none, false, true⟩, ⟨"c", none, false, true⟩]
     [⟨"g1", "G", ["a", "b"]⟩] "a" (by decide)).2.1⟩

/-! ## Helper lemmas about folded sums -/

/-- The paid-attribution share of one expense for the purpose of
`totalPaid` (named out of `totalPaidOf` for the proofs). -/
def paidShare (participants : List String) (entityMembers : String → Option (List String))
    (e : Expense) : ℚ :=
  let members := (getMembers entityMembers e.paidBy).filter (fun m => m ∈ participants)
  if members.length > 0 then e.amount / (members.length : ℚ) else 0

theorem foldl_add_sum {α : Type} (f : α → ℚ) (l : List α) (a : ℚ) :
    l.foldl (fun s x => s + f x) a = a + (l.map f).sum := by
  induction l generalizing a with
  | nil => simp
  | cons x xs ih => simp [ih, add_assoc]

theorem totalPaidOf_eq_sum (participants : List String)
    (entityMembers : String → Option (List String)) (expenses : List Expense)
    (person : String) :
    totalPaidOf participants entityMembers expenses person =
      ((expenses.filter (fun e => person ∈ getMembers entityMembers e.paidBy)).map
        (paidShare participants entityMembers)).sum := by
  show (expenses.filter _).foldl
      (fun s e => s + paidShare participants entityMembers e) 0 = _
  rw [foldl_add_sum, zero_add]

/-! ## C5 — the `totalPaid` and `netBalance` formulas -/

/-- C5: each person-level balance row satisfies the claimed formulas:
`totalPaid` sums, over the expenses whose `paidBy` member list contains
the person, the amount divided by the number of `paidBy` members that are
known persons, and `netBalance = totalPaid − totalOwed + transferDelta`. -/
theorem personBalances_formula (participants : List String)
    (participantCars : String → Option String) (participantDrinks : String → Bool)
    (entityMembers : String → Option (List String)) (expenses : List Expense)
    (payments : List Payment) :
    ∀ b ∈ personBalances participants participantCars participantDrinks entityMembers
        expenses payments,
      b.totalPaid = ((expenses.filter
            (fun e => b.person ∈ getMembers entityMembers e.paidBy)).map
          (fun e => e.amount /
            (((getMembers entityMembers e.paidBy).filter
                (fun m => m ∈ participants)).length : ℚ))).sum
      ∧ b.netBalance = b.totalPaid - b.totalOwed
          + (payFold participants entityMembers payments).transferDelta b.person := by
  intro b hb
  unfold personBalances at hb
  split at hb
  · simp at hb
  · simp only [List.mem_map] at hb
    obtain ⟨person, hperson, hbeq⟩ := hb
    subst hbeq
    refine ⟨?_, by simp⟩
    simp only
    rw [totalPaidOf_eq_sum]
    apply congrArg
    apply List.map_congr_left
    intro e he
    have hmem := (List.mem_filter.mp he).2
    simp only [decide_eq_true_eq] at hmem
    unfold paidShare
    have hin : person ∈ (getMembers entityMembers e.paidBy).filter
        (fun m => m ∈ participants) := by
      rw [List.mem_filter]
      exact ⟨hmem, by simpa using hperson⟩
    rw [if_pos (List.length_pos.mpr (List.ne_nil_of_mem hin))]

/-- Witness for C5 at spec scenario 4: the Eric row of the `"Família"`
example satisfies the formulas. -/
theorem personBalances_formula_witness :
    (⟨"Eric", 45, 30, 15, 0, 0⟩ : Balance) ∈ personBalances ["Eric", "Léo", "Ana"]
        (fun _ => none) (fun _ => true)
        (fun s => if s = "Família" then some ["Eric", "Léo"]
          else if s = "Eric" then some ["Eric"] else if s = "Léo" then some ["Léo"]
          else if s = "Ana" then some ["Ana"] else none)
        [⟨"e1", 90, "d", "general", "Família"⟩] []
    ∧ (⟨"Eric", 45, 30, 15, 0, 0⟩ : Balance).netBalance
        = (45 : ℚ) - 30 + (payFold ["Eric", "Léo", "Ana"]
            (fun s => if s = "Família" then some ["Eric", "Léo"]
              else if s = "Eric" then some ["Eric"] else if s = "Léo" then some ["Léo"]
              else if s = "Ana" then some ["Ana"] else none) []).transferDelta "Eric" := by
  have hmem : (⟨"Eric", 45, 30, 15, 0, 0⟩ : Balance) ∈ personBalances ["Eric", "Léo", "Ana"]
      (fun _ => none) (fun _ => true)
      (fun s => if s = "Família" then some ["Eric", "Léo"]
        else if s = "Eric" then some ["Eric"] else if s = "Léo" then some ["Léo"]
        else if s = "Ana" then some ["Ana"] else none)
      [⟨"e1", 90, "d", "general", "Família"⟩] [] := by
    simp [personBalances, owedByPerson, eligibleFor, payFold, totalPaidOf, getMembers]
    norm_num
  refine ⟨hmem, ?_⟩
  have h := (personBalances_formula ["Eric", "Léo", "Ana"] (fun _ => none) (fun _ => true)
    (fun s => if s = "Família" then some ["Eric", "Léo"]
      else if s = "Eric" then some ["Eric"] else if s = "Léo" then some ["Léo"]
      else if s = "Ana" then some ["Ana"] else none)
    [⟨"e1", 90, "d", "general", "Família"⟩] [] _ hmem).2
  simpa using h

/-! ## C6 — group balances aggregate member balances -/

theorem aggStep_foldl (personBals : List Balance) (members : List String) (acc : Balance) :
    members.foldl (aggStep personBals) acc =
      { person := acc.person
        totalPaid := acc.totalPaid + (members.map
          (fun m => ((lookupBalance personBals m).map Balance.totalPaid).getD 0)).sum
        totalOwed := acc.totalOwed + (members.map
          (fun m => ((lookupBalance personBals m).map Balance.totalOwed).getD 0)).sum
        netBalance := acc.netBalance + (members.map
          (fun m => ((lookupBalance personBals m).map Balance.netBalance).getD 0)).sum
        totalPaymentsMade := acc.totalPaymentsMade + (members.map
          (fun m => ((lookupBalance personBals m).map Balance.totalPaymentsMade).getD 0)).sum
        totalPaymentsReceived := acc.totalPaymentsReceived + (members.map
          (fun m => ((lookupBalance personBals m).map
            Balance.totalPaymentsReceived).getD 0)).sum } := by
  induction members generalizing acc with
  | nil => simp
  | cons m ms ih =>
    rw [List.foldl_cons, ih]
    unfold aggStep
    cases h : lookupBalance personBals m <;> simp [h, add_assoc]

/-- C6: the group balance list consists of exactly the entities with more
than one member, each carrying the five balance fields summed over the
person-level balances of its members (a member without a person-level
balance contributing zero). -/
theorem groupBalances_spec (entities : List String)
    (entityMembers : String → Option (List String)) (personBals : List Balance) :
    groupBalances entities entityMembers personBals =
      (entities.filter (fun entity => ((entityMembers entity).getD []).length > 1)).map
        (fun entity =>
          { person := entity
            totalPaid := ((((entityMembers entity).getD []).map
              (fun m => ((lookupBalance personBals m).map Balance.totalPaid).getD 0))).sum
            totalOwed := ((((entityMembers entity).getD []).map
              (fun m => ((lookupBalance personBals m).map Balance.totalOwed).getD 0))).sum
            netBalance := ((((entityMembers entity).getD []).map
              (fun m => ((lookupBalance personBals m).map Balance.netBalance).getD 0))).sum
            totalPaymentsMade := ((((entityMembers entity).getD []).map
              (fun m => ((lookupBalance personBals m).map
                Balance.totalPaymentsMade).getD 0))).sum
            totalPaymentsReceived := ((((entityMembers entity).getD []).map
              (fun m => ((lookupBalance personBals m).map
                Balance.totalPaymentsReceived).getD 0))).sum }) := by
  unfold groupBalances
  have hpred : List.filter (fun entity =>
        match entityMembers entity with
        | some members => decide (members.length > 1)
        | none => false) entities
      = List.filter (fun entity => decide (((entityMembers entity).getD []).length > 1))
          entities := by
    apply List.filter_congr
    intro entity _
    cases hm : entityMembers entity <;> simp [hm]
  rw [hpred]
  apply List.map_congr_left
  intro entity hent
  rw [aggStep_foldl]
  simp

/-! ## C8 — dangling entity references are harmless -/

/-- C8: when an expense's `paidBy` and a payment's `from`/`to` resolve to
no known participant, the engine still returns one balance per
participant, the dangling expense contributes zero to every `totalPaid`,
and the dangling payment leaves the balances entirely unchanged (no
division by zero: the zero-member guards return zero shares). -/
theorem danglingReference_spec (participants : List String)
    (participantCars : String → Option String) (participantDrinks : String → Bool)
    (entityMembers : String → Option (List String)) (expenses : List Expense)
    (payments : List Payment) (e : Expense) (pay : Payment)
    (hpart : participants ≠ [])
    (he : (getMembers entityMembers e.paidBy).filter (fun m => m ∈ participants) = [])
    (hfrom : (getMembers entityMembers pay.fromEntity).filter
      (fun m => m ∈ participants) = [])
    (hto : (getMembers entityMembers pay.toEntity).filter
      (fun m => m ∈ participants) = []) :
    ((personBalances participants participantCars participantDrinks entityMembers
        (e :: expenses) (pay :: payments)).map Balance.person = participants)
    ∧ (∀ p ∈ participants,
        totalPaidOf participants entityMembers (e :: expenses) p =
          totalPaidOf participants entityMembers expenses p)
    ∧ personBalances participants participantCars participantDrinks entityMembers
        (e :: expenses) (pay :: payments)
      = personBalances participants participantCars participantDrinks entityMembers
          (e :: expenses) payments := by
  have hlen : ¬ participants.length = 0 := by
    simpa [List.length_eq_zero] using hpart
  have hpaid : ∀ p ∈ participants,
      totalPaidOf participants entityMembers (e :: expenses) p =
        totalPaidOf participants entityMembers expenses p := by
    intro p hp
    unfold totalPaidOf
    have hpred : ¬ (p ∈ getMembers entityMembers e.paidBy) := by
      intro hmem
      have : p ∈ (getMembers entityMembers e.paidBy).filter
          (fun m => m ∈ participants) := by
        rw [List.mem_filter]
        exact ⟨hmem, by simpa using hp⟩
      rw [he] at this
      simp at this
    rw [List.filter_cons_of_neg (by simpa using hpred)]
  have hstep : ∀ st : PayState, payStep participants entityMembers st pay = st := by
    intro st
    unfold payStep
    rw [hfrom, hto]
    cases st
    simp
  refine ⟨?_, hpaid, ?_⟩
  · unfold personBalances
    rw [if_neg hlen, List.map_map]
    exact List.map_id'' (fun _ => rfl) _
  · unfold personBalances
    rw [if_neg hlen, if_neg hlen]
    unfold payFold
    rw [List.foldl_cons, hstep]

/-- Witness for C8: a ghost expense payer and a fully-dangling payment on
a two-person roster. -/
theorem danglingReference_spec_witness :
    (["a", "b"] : List String) ≠ []
    ∧ ((personBalances ["a", "b"] (fun _ => none) (fun _ => true) (fun _ => none)
        [⟨"e1", 10, "d", "general", "ghost"⟩]
        [⟨"p1", 5, "general", "ghost", "phantom"⟩]).map Balance.person = ["a", "b"])
    ∧ personBalances ["a", "b"] (fun _ => none) (fun _ => true) (fun _ => none)
        [⟨"e1", 10, "d", "general", "ghost"⟩]
        [⟨"p1", 5, "general", "ghost", "phantom"⟩]
      = personBalances ["a", "b"] (fun _ => none) (fun _ => true) (fun _ => none)
          [⟨"e1", 10, "d", "general", "ghost"⟩] [] := by
  have h := danglingReference_spec ["a", "b"] (fun _ => none) (fun _ => true)
    (fun _ => none) [] [] ⟨"e1", 10, "d", "general", "ghost"⟩
    ⟨"p1", 5, "general", "ghost", "phantom"⟩
    (by decide) (by decide) (by decide) (by decide)
  exact ⟨by decide, h.1, h.2.2⟩

/-! ## C9 — settlement planning is pure and deterministic -/

/-- Keep only the data the settlement planner reads from a balance record
(its person name and net balance). -/
def normalizeBalance (b : Balance) : Balance :=
  ⟨b.person, 0, 0, b.netBalance, 0, 0⟩

theorem runCreditors_map_normalize (name : String) (d : ℚ) (cs : List Balance) :
    runCreditors name d (cs.map normalizeBalance) =
      ((runCreditors name d cs).1.map normalizeBalance,
        (runCreditors name d cs).2.1, (runCreditors name d cs).2.2) := by
  induction cs generalizing d with
  | nil => simp [runCreditors]
  | cons c cs ih =>
    simp only [List.map_cons, runCreditors, normalizeBalance]
    split_ifs <;> simp [ih, normalizeBalance]

theorem runDebtors_map_normalize (ds cs : List Balance) :
    runDebtors (ds.map normalizeBalance) (cs.map normalizeBalance) =
      ((runDebtors ds cs).1.map normalizeBalance, (runDebtors ds cs).2) := by
  induction ds generalizing cs with
  | nil => simp [runDebtors]
  | cons d ds ih =>
    simp only [List.map_cons, runDebtors, runCreditors_map_normalize, normalizeBalance, ih]

theorem insertStable_map_normalize (lt : Balance → Balance → Bool)
    (hlt : ∀ a b, lt (normalizeBalance a) (normalizeBalance b) = lt a b)
    (x : Balance) (l : List Balance) :
    insertStable lt (normalizeBalance x) (l.map normalizeBalance) =
      (insertStable lt x l).map normalizeBalance := by
  induction l with
  | nil => simp [insertStable]
  | cons y ys ih =>
    simp only [List.map_cons, insertStable, hlt]
    by_cases h : lt x y = true
    · simp [h]
    · simp [h, ih]

theorem sortStable_map_normalize (lt : Balance → Balance → Bool)
    (hlt : ∀ a b, lt (normalizeBalance a) (normalizeBalance b) = lt a b)
    (l : List Balance) :
    sortStable lt (l.map normalizeBalance) = (sortStable lt l).map normalizeBalance := by
  unfold sortStable
  have key : ∀ (acc : List Balance) (l : List Balance),
      (l.map normalizeBalance).foldl (fun acc x => insertStable lt x acc)
          (acc.map normalizeBalance)
        = (l.foldl (fun acc x => insertStable lt x acc) acc).map normalizeBalance := by
    intro acc l
    induction l generalizing acc with
    | nil => simp
    | cons x xs ih =>
      simp only [List.map_cons, List.foldl_cons]
      rw [insertStable_map_normalize lt hlt, ih]
  simpa using key [] l

/-- C9: the settlement computation never mutates its input (the run
returns the input balance list untouched), and its transfer output is a
function of the balance set alone — it depends only on each record's
`person` and `netBalance`, so re-invocation on the same balances always
reproduces the same sequence. -/
theorem planSettlements_pure (balances : List Balance) :
    (planSettlementsRun balances).2 = balances
    ∧ (planSettlementsRun balances).1 = planSettlements balances
    ∧ planSettlements (balances.map normalizeBalance) = planSettlements balances := by
  refine ⟨rfl, rfl, ?_⟩
  unfold planSettlements
  have hfd : (balances.map normalizeBalance).filter (fun b => b.netBalance < -(1/100))
      = (balances.filter (fun b => b.netBalance < -(1/100))).map normalizeBalance := by
    rw [List.filter_map]
    rfl
  have hfc : (balances.map normalizeBalance).filter (fun b => b.netBalance > 1/100)
      = (balances.filter (fun b => b.netBalance > 1/100)).map normalizeBalance := by
    rw [List.filter_map]
    rfl
  rw [hfd, hfc,
    sortStable_map_normalize (fun a b => decide (a.netBalance < b.netBalance))
      (fun a b => rfl),
    sortStable_map_normalize (fun a b => decide (b.netBalance < a.netBalance))
      (fun a b => rfl)]
  simp only [runDebtors_map_normalize]

/-! ## Sum lemmas for the conservation theorem -/

theorem sum_map_neg' {α : Type} (l : List α) (f : α → ℚ) :
    (l.map (fun x => -f x)).sum = -(l.map f).sum := by
  induction l with
  | nil => simp
  | cons x xs ih => simp [ih]; ring

theorem sum_map_mul_left' {α : Type} (l : List α) (f : α → ℚ) (c : ℚ) :
    (l.map (fun x => c * f x)).sum = c * (l.map f).sum := by
  induction l with
  | nil => simp
  | cons x xs ih => simp [ih, mul_add]

theorem sum_map_ite_eq' (l : List String) (x : String) (v : ℚ)
    (hnd : l.Nodup) (hx : x ∈ l) :
    (l.map (fun p => if p = x then v else 0)).sum = v := by
  induction l with
  | nil => simp at hx
  | cons y ys ih =>
    rcases List.mem_cons.mp hx with h | h
    · subst h
      have hnotin : x ∉ ys := (List.nodup_cons.mp hnd).1
      have hzero : (ys.map (fun p => if p = x then v else 0)).sum = 0 := by
        rw [List.map_congr_left (fun p hp => if_neg (fun he => hnotin (by rwa [he] at hp)))]
        simp
      simp [hzero]
    · have hne : y ≠ x := fun he => ((List.nodup_cons.mp hnd).1 (he ▸ h)).elim
      simp only [List.map_cons, List.sum_cons, if_neg hne,
        ih (List.nodup_cons.mp hnd).2 h, zero_add]

theorem sum_map_count' (participants l : List String) (hnd : participants.Nodup)
    (hsub : ∀ y ∈ l, y ∈ participants) :
    (participants.map (fun p => (l.count p : ℚ))).sum = l.length := by
  induction l with
  | nil => simp
  | cons y ys ih =>
    have hy : y ∈ participants := hsub y (List.mem_cons_self y ys)
    have hys : ∀ z ∈ ys, z ∈ participants := fun z hz => hsub z (List.mem_cons_of_mem _ hz)
    have hcast : ∀ p : String, (((y :: ys).count p : ℚ)) =
        (ys.count p : ℚ) + (if p = y then (1 : ℚ) else 0) := by
      intro p
      by_cases hpy : p = y
      · subst hpy; simp [List.count_cons]
      · have hyp : (y == p) = false := beq_eq_false_iff_ne.mpr (Ne.symm hpy)
        simp [List.count_cons, hyp, hpy]
    calc (participants.map (fun p => ((y :: ys).count p : ℚ))).sum
        = (participants.map (fun p => (ys.count p : ℚ)
            + (if p = y then (1 : ℚ) else 0))).sum := by
          exact congrArg _ (List.map_congr_left (fun p _ => hcast p))
      _ = (participants.map (fun p => (ys.count p : ℚ))).sum
            + (participants.map (fun p => if p = y then (1 : ℚ) else 0)).sum :=
          List.sum_map_add
      _ = (ys.length : ℚ) + 1 := by rw [ih hys, sum_map_ite_eq' _ _ _ hnd hy]
      _ = ((y :: ys).length : ℚ) := by simp [add_comm]

theorem sum_map_ite_mem' (participants gm : List String) (c : ℚ) :
    (participants.map (fun p => if p ∈ gm then c else 0)).sum
      = c * ((participants.filter (fun p => p ∈ gm)).length : ℚ) := by
  induction participants with
  | nil => simp
  | cons p ps ih =>
    by_cases hp : p ∈ gm
    · rw [List.map_cons, List.sum_cons, if_pos hp,
        List.filter_cons_of_pos (by simp [hp]), ih, List.length_cons]
      push_cast
      ring
    · rw [List.map_cons, List.sum_cons, if_neg hp,
        List.filter_cons_of_neg (by simp [hp]), ih, zero_add]

theorem sum_filter_map' {α : Type} (l : List α) (q : α → Prop) [DecidablePred q]
    (f : α → ℚ) :
    ((l.filter (fun x => q x)).map f).sum = (l.map (fun x => if q x then f x else 0)).sum := by
  induction l with
  | nil => simp
  | cons x xs ih =>
    by_cases hq : q x
    · rw [List.filter_cons_of_pos (by simpa using hq)]
      simp [if_pos hq, ih]
    · rw [List.filter_cons_of_neg (by simpa using hq)]
      simp [if_neg hq, ih]

theorem sum_comm_list' {α β : Type} (l₁ : List α) (l₂ : List β) (F : α → β → ℚ) :
    (l₁.map (fun a => (l₂.map (F a)).sum)).sum
      = (l₂.map (fun b => (l₁.map (fun a => F a b)).sum)).sum := by
  induction l₁ with
  | nil => simp
  | cons a as ih =>
    simp only [List.map_cons, List.sum_cons, ih]
    rw [← List.sum_map_add]

theorem length_filter_mem_comm (l₁ l₂ : List String) (h₁ : l₁.Nodup)
    (h₂ : (l₂.filter (fun x => x ∈ l₁)).Nodup) :
    (l₁.filter (fun x => x ∈ l₂)).length = (l₂.filter (fun x => x ∈ l₁)).length := by
  have ha : (l₁.filter (fun x => x ∈ l₂)).Nodup := h₁.filter _
  have hts : (l₁.filter (fun x => x ∈ l₂)).toFinset
      = (l₂.filter (fun x => x ∈ l₁)).toFinset := by
    ext x
    simp only [List.mem_toFinset, List.mem_filter, decide_eq_true_eq]
    tauto
  rw [← List.toFinset_card_of_nodup ha, ← List.toFinset_card_of_nodup h₂, hts]

theorem sum_map_mul_right' {α : Type} (l : List α) (f : α → ℚ) (c : ℚ) :
    (l.map (fun x => f x * c)).sum = (l.map f).sum * c := by
  induction l with
  | nil => simp
  | cons x xs ih => simp [ih, add_mul]

theorem fallback_ne_nil (participants l : List String) (h : participants ≠ []) :
    (if l.length = 0 then participants else l) ≠ [] := by
  split
  · exact h
  · rename_i hlen
    simpa [List.length_eq_zero] using hlen

theorem fallback_subset (participants l : List String)
    (hsub : ∀ y ∈ l, y ∈ participants) :
    ∀ y ∈ (if l.length = 0 then participants else l), y ∈ participants := by
  split
  · exact fun _ hy => hy
  · exact hsub

theorem eligibleFor_ne_nil (participants : List String)
    (participantCars : String → Option String) (participantDrinks : String → Bool)
    (category : String) (h : participants ≠ []) :
    eligibleFor participants participantCars participantDrinks category ≠ [] :=
  fallback_ne_nil participants _ h

theorem eligibleFor_subset (participants : List String)
    (participantCars : String → Option String) (participantDrinks : String → Bool)
    (category : String) :
    ∀ y ∈ eligibleFor participants participantCars participantDrinks category,
      y ∈ participants := by
  have hbase : ∀ y ∈ (if category = "eric-car" ∨ category = "leo-car" then
      participants.filter (fun p => participantCars p = some category)
    else if category = "drinks" then
      participants.filter (fun p => participantDrinks p)
    else participants), y ∈ participants := by
    split
    · exact fun y hy => (List.mem_filter.mp hy).1
    · split
      · exact fun y hy => (List.mem_filter.mp hy).1
      · exact fun _ hy => hy
  exact fun y hy => fallback_subset participants _ hbase y hy

theorem owed_sum (participants : List String) (participantCars : String → Option String)
    (participantDrinks : String → Bool) (expenses : List Expense)
    (hnd : participants.Nodup) (hne : participants ≠ []) :
    (participants.map
        (owedByPerson participants participantCars participantDrinks expenses)).sum
      = (expenses.map Expense.amount).sum := by
  unfold owedByPerson
  suffices h : ∀ (es : List Expense) (init : String → ℚ),
      (participants.map (es.foldl
        (fun acc e =>
          let eligible := eligibleFor participants participantCars participantDrinks
            e.category
          let share := e.amount / (eligible.length : ℚ)
          fun p => acc p + (eligible.count p : ℚ) * share) init)).sum
      = (participants.map init).sum + (es.map Expense.amount).sum by
    simpa using h expenses (fun _ => 0)
  intro es
  induction es with
  | nil => simp
  | cons e es ih =>
    intro init
    rw [List.foldl_cons, ih]
    have hlen : ((eligibleFor participants participantCars participantDrinks
        e.category).length : ℚ) ≠ 0 := by
      have := eligibleFor_ne_nil participants participantCars participantDrinks
        e.category hne
      simpa [List.length_eq_zero] using this
    have hstep : (participants.map
        (fun p => init p + ((eligibleFor participants participantCars participantDrinks
          e.category).count p : ℚ)
            * (e.amount / ((eligibleFor participants participantCars participantDrinks
              e.category).length : ℚ)))).sum
        = (participants.map init).sum + e.amount := by
      rw [List.sum_map_add, sum_map_mul_right',
        sum_map_count' participants _ hnd
          (eligibleFor_subset participants participantCars participantDrinks e.category)]
      congr 1
      rw [mul_comm]
      exact div_mul_cancel₀ _ hlen
    simp only [hstep, List.map_cons, List.sum_cons]
    ring

theorem payFold_delta_sum (participants : List String)
    (entityMembers : String → Option (List String)) (payments : List Payment)
    (hnd : participants.Nodup)
    (hps : ∀ pay ∈ payments,
      (getMembers entityMembers pay.fromEntity).filter (fun m => m ∈ participants) ≠ []
      ∧ (getMembers entityMembers pay.toEntity).filter (fun m => m ∈ participants) ≠ []) :
    (participants.map (payFold participants entityMembers payments).transferDelta).sum
      = 0 := by
  unfold payFold
  suffices h : ∀ (ps : List Payment) (init : PayState),
      (∀ pay ∈ ps,
        (getMembers entityMembers pay.fromEntity).filter (fun m => m ∈ participants) ≠ []
        ∧ (getMembers entityMembers pay.toEntity).filter
            (fun m => m ∈ participants) ≠ []) →
      (participants.map
        (ps.foldl (payStep participants entityMembers) init).transferDelta).sum
      = (participants.map init.transferDelta).sum by
    simpa using h payments ⟨fun _ => 0, fun _ => 0, fun _ => 0⟩ hps
  intro ps
  induction ps with
  | nil => intro init _; rfl
  | cons pay ps ih =>
    intro init hall
    rw [List.foldl_cons, ih _ (fun q hq => hall q (List.mem_cons_of_mem _ hq))]
    have hpay := hall pay (List.mem_cons_self pay ps)
    set fromMembers := (getMembers entityMembers pay.fromEntity).filter
      (fun m => m ∈ participants) with hfM
    set toMembers := (getMembers entityMembers pay.toEntity).filter
      (fun m => m ∈ participants) with htM
    have hfsub : ∀ y ∈ fromMembers, y ∈ participants := by
      intro y hy
      have := (List.mem_filter.mp hy).2
      simpa using this
    have htsub : ∀ y ∈ toMembers, y ∈ participants := by
      intro y hy
      have := (List.mem_filter.mp hy).2
      simpa using this
    have hflen : (fromMembers.length : ℚ) ≠ 0 := by
      intro hc
      apply hpay.1
      rw [← List.length_eq_zero]
      exact_mod_cast hc
    have htlen : (toMembers.length : ℚ) ≠ 0 := by
      intro hc
      apply hpay.2
      rw [← List.length_eq_zero]
      exact_mod_cast hc
    have hfpos : fromMembers.length > 0 :=
      List.length_pos.mpr hpay.1
    have htpos : toMembers.length > 0 :=
      List.length_pos.mpr hpay.2
    show (participants.map (payStep participants entityMembers init pay).transferDelta).sum
      = (participants.map init.transferDelta).sum
    unfold payStep
    simp only [← hfM, ← htM, if_pos hfpos, if_pos htpos]
    have hsplit : (participants.map (fun p =>
        init.transferDelta p
          + (fromMembers.count p : ℚ) * (pay.amount / (fromMembers.length : ℚ))
          - (toMembers.count p : ℚ) * (pay.amount / (toMembers.length : ℚ)))).sum
        = (participants.map init.transferDelta).sum
          + ((participants.map (fun p => (fromMembers.count p : ℚ))).sum
              * (pay.amount / (fromMembers.length : ℚ)))
          - ((participants.map (fun p => (toMembers.count p : ℚ))).sum
              * (pay.amount / (toMembers.length : ℚ))) := by
      rw [List.map_congr_left (fun p _ => sub_eq_add_neg _ _), List.sum_map_add,
        List.sum_map_add, sum_map_neg', sum_map_mul_right', sum_map_mul_right',
        ← sub_eq_add_neg]
    have hf : ((fromMembers.length : ℚ)) * (pay.amount / (fromMembers.length : ℚ))
        = pay.amount := by
      rw [mul_comm]
      exact div_mul_cancel₀ _ hflen
    have ht : ((toMembers.length : ℚ)) * (pay.amount / (toMembers.length : ℚ))
        = pay.amount := by
      rw [mul_comm]
      exact div_mul_cancel₀ _ htlen
    rw [hsplit, sum_map_count' participants fromMembers hnd hfsub,
      sum_map_count' participants toMembers hnd htsub, hf, ht]
    ring

theorem totalPaid_sum (participants : List String)
    (entityMembers : String → Option (List String)) (expenses : List Expense)
    (hnd : participants.Nodup)
    (hes : ∀ e ∈ expenses,
      (getMembers entityMembers e.paidBy).filter (fun m => m ∈ participants) ≠ []
      ∧ ((getMembers entityMembers e.paidBy).filter
          (fun m => m ∈ participants)).Nodup) :
    (participants.map (totalPaidOf participants entityMembers expenses)).sum
      = (expenses.map Expense.amount).sum := by
  have h1 : ∀ p, totalPaidOf participants entityMembers expenses p
      = (expenses.map (fun e => if p ∈ getMembers entityMembers e.paidBy
          then paidShare participants entityMembers e else 0)).sum := by
    intro p
    rw [totalPaidOf_eq_sum]
    exact sum_filter_map' expenses (fun e => p ∈ getMembers entityMembers e.paidBy) _
  rw [List.map_congr_left (fun p _ => h1 p),
    sum_comm_list' participants expenses
      (fun p e => if p ∈ getMembers entityMembers e.paidBy
        then paidShare participants entityMembers e else 0)]
  apply congrArg
  apply List.map_congr_left
  intro e he
  set gm := getMembers entityMembers e.paidBy with hgm
  set members := gm.filter (fun m => m ∈ participants) with hmembers
  have hlen : (members.length : ℚ) ≠ 0 := by
    intro hc
    apply (hes e he).1
    rw [← List.length_eq_zero]
    exact_mod_cast hc
  have hpos : members.length > 0 := List.length_pos.mpr (hes e he).1
  have hshare : paidShare participants entityMembers e
      = e.amount / (members.length : ℚ) := by
    unfold paidShare
    rw [← hgm, ← hmembers, if_pos hpos]
  rw [sum_map_ite_mem' participants gm (paidShare participants entityMembers e),
    length_filter_mem_comm participants gm hnd (by rw [← hmembers]; exact (hes e he).2),
    ← hmembers, hshare, div_mul_cancel₀ _ hlen]

/-! ## C1 — conservation of net balances -/

/-- C1 counterexample: an expense whose `paidBy` entity resolves to no
known participant breaks conservation — the owed side is distributed but
no `totalPaid` is attributed, so the net balances sum to `-10`, far
outside the `1e-6` tolerance. -/
theorem conservation_counterexample :
    ¬ (|((personBalances ["a", "b"] (fun _ => none) (fun _ => true) (fun _ => none)
        [⟨"e1", 10, "d", "general", "ghost"⟩] []).map Balance.netBalance).sum|
      ≤ 1/1000000) := by
  have hval : ((personBalances ["a", "b"] (fun _ => none) (fun _ => true) (fun _ => none)
      [⟨"e1", 10, "d", "general", "ghost"⟩] []).map Balance.netBalance)
      = [-5, -5] := by
    simp [personBalances, owedByPerson, eligibleFor, payFold, totalPaidOf, getMembers]
    norm_num
  rw [hval]
  norm_num

/-- C1 amended: with a duplicate-free roster, and when every expense's
`paidBy` entity and every payment's `from`/`to` entity resolve (without
duplicates, for `paidBy`) to at least one known participant, the person
net balances sum to exactly `0` (hence within any tolerance). -/
theorem conservation (participants : List String)
    (participantCars : String → Option String) (participantDrinks : String → Bool)
    (entityMembers : String → Option (List String)) (expenses : List Expense)
    (payments : List Payment)
    (hnd : participants.Nodup)
    (hes : ∀ e ∈ expenses,
      (getMembers entityMembers e.paidBy).filter (fun m => m ∈ participants) ≠ []
      ∧ ((getMembers entityMembers e.paidBy).filter
          (fun m => m ∈ participants)).Nodup)
    (hps : ∀ pay ∈ payments,
      (getMembers entityMembers pay.fromEntity).filter (fun m => m ∈ participants) ≠ []
      ∧ (getMembers entityMembers pay.toEntity).filter
          (fun m => m ∈ participants) ≠ []) :
    ((personBalances participants participantCars participantDrinks entityMembers
        expenses payments).map Balance.netBalance).sum = 0 := by
  by_cases hnil : participants = []
  · subst hnil
    simp [personBalances]
  · unfold personBalances
    rw [if_neg (by simpa [List.length_eq_zero] using hnil), List.map_map]
    have hproj : (participants.map (Balance.netBalance ∘ fun person =>
        ({ person := person
           totalPaid := totalPaidOf participants entityMembers expenses person
           totalOwed := owedByPerson participants participantCars participantDrinks
             expenses person
           netBalance := totalPaidOf participants entityMembers expenses person
             - owedByPerson participants participantCars participantDrinks
                 expenses person
             + (payFold participants entityMembers payments).transferDelta person
           totalPaymentsMade :=
             (payFold participants entityMembers payments).paymentsMade person
           totalPaymentsReceived :=
             (payFold participants entityMembers payments).paymentsReceived person }
          : Balance))).sum
        = (participants.map (fun person =>
            totalPaidOf participants entityMembers expenses person
            - owedByPerson participants participantCars participantDrinks
                expenses person
            + (payFold participants entityMembers payments).transferDelta person)).sum :=
      rfl
    rw [hproj]
    have hsplit : (participants.map (fun person =>
        totalPaidOf participants entityMembers expenses person
        - owedByPerson participants participantCars participantDrinks expenses person
        + (payFold participants entityMembers payments).transferDelta person)).sum
        = (participants.map (totalPaidOf participants entityMembers expenses)).sum
          - (participants.map (owedByPerson participants participantCars
              participantDrinks expenses)).sum
          + (participants.map
              (payFold participants entityMembers payments).transferDelta).sum := by
      rw [List.map_congr_left (fun p _ => by rw [sub_eq_add_neg]),
        List.sum_map_add, List.sum_map_add, sum_map_neg', ← sub_eq_add_neg]
    rw [hsplit, totalPaid_sum participants entityMembers expenses hnd hes,
      owed_sum participants participantCars participantDrinks expenses hnd hnil,
      payFold_delta_sum participants entityMembers payments hnd hps]
    ring

/-- Witness for C1 amended at spec scenario 2: Eric/Léo, one expense and
one repayment, everything resolvable — the net balances sum to zero. -/
theorem conservation_witness :
    (["Eric", "Léo"] : List String).Nodup
    ∧ ((personBalances ["Eric", "Léo"] (fun _ => none) (fun _ => true)
        (fun s => if s = "Eric" then some ["Eric"]
          else if s = "Léo" then some ["Léo"] else none)
        [⟨"e1", 100, "d", "general", "Eric"⟩]
        [⟨"p1", 50, "general", "Léo", "Eric"⟩]).map Balance.netBalance).sum = 0 :=
  ⟨by decide,
   conservation ["Eric", "Léo"] (fun _ => none) (fun _ => true)
     (fun s => if s = "Eric" then some ["Eric"]
       else if s = "Léo" then some ["Léo"] else none)
     [⟨"e1", 100, "d", "general", "Eric"⟩]
     [⟨"p1", 50, "general", "Léo", "Eric"⟩]
     (by decide)
     (by intro e he; fin_cases he <;> exact ⟨by decide, by decide⟩)
     (by intro pay hp; fin_cases hp <;> exact ⟨by decide, by decide⟩)⟩

/-! ## C2 — settlement transfers: replay semantics -/

/-- The claim's application of a transfer list to balances: each transfer
shrinks the debtor's deficit (adds to its net balance) and the creditor's
surplus (subtracts from its net balance). -/
def applySettlements (balances : List Balance) (transfers : List Transfer) :
    List Balance :=
  transfers.foldl
    (fun acc t =>
      acc.map (fun b =>
        if b.person = t.fromPerson then { b with netBalance := b.netBalance + t.amount }
        else if b.person = t.toPerson then
          { b with netBalance := b.netBalance - t.amount }
        else b))
    balances

/-- Decrement a remaining-debt/credit map at one name. -/
def updMap (f : String → ℚ) (x : String) (a : ℚ) : String → ℚ :=
  fun p => if p = x then f p - a else f p

/-- The claim's characterisation of the emitted transfers: along the list,
each transfer's amount equals `min(remaining debt of from, remaining
credit of to)` and is at least `0.01`, the remaining amounts being
decremented as the list is replayed. -/
def replayOk (debts credits : String → ℚ) : List Transfer → Prop
  | [] => True
  | t :: ts =>
      t.amount = min (debts t.fromPerson) (credits t.toPerson)
      ∧ 1/100 ≤ t.amount
      ∧ replayOk (updMap debts t.fromPerson t.amount)
          (updMap credits t.toPerson t.amount) ts

/-- The remaining-debt/credit maps after replaying a transfer list. -/
def replayState (debts credits : String → ℚ) : List Transfer → (String → ℚ) × (String → ℚ)
  | [] => (debts, credits)
  | t :: ts => replayState (updMap debts t.fromPerson t.amount)
      (updMap credits t.toPerson t.amount) ts

/-- A person's initial deficit across a balance list (sum form; with
duplicate-free names this is the single debtor entry's `|netBalance|`). -/
def initDebts (balances : List Balance) (p : String) : ℚ :=
  (balances.map (fun b =>
    if b.person = p ∧ b.netBalance < -(1/100) then -b.netBalance else 0)).sum

/-- A person's initial surplus across a balance list. -/
def initCredits (balances : List Balance) (p : String) : ℚ :=
  (balances.map (fun b =>
    if b.person = p ∧ b.netBalance > 1/100 then b.netBalance else 0)).sum

theorem replayOk_append (ts₁ ts₂ : List Transfer) (debts credits : String → ℚ) :
    replayOk debts credits (ts₁ ++ ts₂) ↔
      replayOk debts credits ts₁
      ∧ replayOk (replayState debts credits ts₁).1 (replayState debts credits ts₁).2
          ts₂ := by
  induction ts₁ generalizing debts credits with
  | nil => simp [replayOk, replayState]
  | cons t ts ih => simp [replayOk, replayState, ih, and_assoc]

theorem replayOk_amount_ge (ts : List Transfer) (debts credits : String → ℚ)
    (h : replayOk debts credits ts) : ∀ t ∈ ts, 1/100 ≤ t.amount := by
  induction ts generalizing debts credits with
  | nil => intro t ht; cases ht
  | cons t ts ih =>
    obtain ⟨_, h2, h3⟩ := h
    intro t' ht'
    rcases List.mem_cons.mp ht' with rfl | ht'
    · exact h2
    · exact ih _ _ h3 t' ht'

theorem insertStable_perm (lt : Balance → Balance → Bool) (x : Balance)
    (l : List Balance) : List.Perm (insertStable lt x l) (x :: l) := by
  induction l with
  | nil => exact List.Perm.refl _
  | cons y ys ih =>
    unfold insertStable
    split
    · exact List.Perm.refl _
    · exact ((ih.cons y).trans (List.Perm.swap x y ys))

theorem sortStable_perm (lt : Balance → Balance → Bool) (l : List Balance) :
    List.Perm (sortStable lt l) l := by
  unfold sortStable
  suffices h : ∀ (l acc : List Balance),
      List.Perm (l.foldl (fun acc x => insertStable lt x acc) acc) (acc ++ l) by
    simpa using h l []
  intro l
  induction l with
  | nil => intro acc; simp
  | cons x xs ih =>
    intro acc
    have h1 : List.Perm (xs.foldl (fun acc x => insertStable lt x acc)
        (insertStable lt x acc)) ((insertStable lt x acc) ++ xs) := ih _
    have h2 : List.Perm ((insertStable lt x acc) ++ xs) ((x :: acc) ++ xs) :=
      (insertStable_perm lt x acc).append_right xs
    exact (h1.trans h2).trans List.perm_middle.symm

theorem sum_single_person (bs : List Balance) (F : Balance → ℚ) (b₀ : Balance)
    (hnd : (bs.map Balance.person).Nodup) (hb : b₀ ∈ bs) :
    (bs.map (fun b => if b.person = b₀.person then F b else 0)).sum = F b₀ := by
  induction bs with
  | nil => cases hb
  | cons b bs ih =>
    rcases List.mem_cons.mp hb with rfl | hb'
    · have hnotin : b₀.person ∉ bs.map Balance.person := (List.nodup_cons.mp hnd).1
      have hz : (bs.map (fun b' => if b'.person = b₀.person then F b' else 0)).sum
          = 0 := by
        rw [List.map_congr_left (fun b' hb'' =>
          if_neg (fun he => hnotin
            (by rw [← he]; exact List.mem_map_of_mem Balance.person hb'')))]
        simp
      simp [hz]
    · have hne : b.person ≠ b₀.person := by
        intro he
        exact (List.nodup_cons.mp hnd).1
          (he ▸ List.mem_map_of_mem Balance.person hb')
      simp only [List.map_cons, List.sum_cons, if_neg hne,
        ih (List.nodup_cons.mp hnd).2 hb', zero_add]

theorem initDebts_eq (balances : List Balance) (b₀ : Balance)
    (hnd : (balances.map Balance.person).Nodup) (hb : b₀ ∈ balances)
    (hneg : b₀.netBalance < -(1/100)) :
    initDebts balances b₀.person = |b₀.netBalance| := by
  unfold initDebts
  have hpt : ∀ b ∈ balances,
      (if b.person = b₀.person ∧ b.netBalance < -(1/100) then -b.netBalance else 0)
        = (if b.person = b₀.person then
            (if b.netBalance < -(1/100) then -b.netBalance else 0) else 0) := by
    intro b _
    by_cases h1 : b.person = b₀.person <;> by_cases h2 : b.netBalance < -(1/100) <;>
      simp [h1, h2]
  rw [List.map_congr_left hpt,
    sum_single_person balances (fun b => if b.netBalance < -(1/100) then -b.netBalance
      else 0) b₀ hnd hb, if_pos hneg, abs_of_neg (by linarith)]

theorem initCredits_eq (balances : List Balance) (b₀ : Balance)
    (hnd : (balances.map Balance.person).Nodup) (hb : b₀ ∈ balances)
    (hpos : b₀.netBalance > 1/100) :
    initCredits balances b₀.person = b₀.netBalance := by
  unfold initCredits
  have hpt : ∀ b ∈ balances,
      (if b.person = b₀.person ∧ b.netBalance > 1/100 then b.netBalance else 0)
        = (if b.person = b₀.person then
            (if b.netBalance > 1/100 then b.netBalance else 0) else 0) := by
    intro b _
    by_cases h1 : b.person = b₀.person <;> by_cases h2 : b.netBalance > 1/100 <;>
      simp [h1, h2]
  rw [List.map_congr_left hpt,
    sum_single_person balances (fun b => if b.netBalance > 1/100 then b.netBalance
      else 0) b₀ hnd hb, if_pos hpos]

theorem runCreditors_replay (name : String) (cs : List Balance) (d : ℚ)
    (debts credits : String → ℚ)
    (hnd : (cs.map Balance.person).Nodup)
    (hdname : debts name = d)
    (hcred : ∀ c' ∈ cs, credits c'.person = c'.netBalance) :
    replayOk debts credits (runCreditors name d cs).2.1
    ∧ (replayState debts credits (runCreditors name d cs).2.1).1 name
        = (runCreditors name d cs).2.2
    ∧ (∀ p, p ≠ name →
        (replayState debts credits (runCreditors name d cs).2.1).1 p = debts p)
    ∧ (∀ c' ∈ (runCreditors name d cs).1,
        (replayState debts credits (runCreditors name d cs).2.1).2 c'.person
          = c'.netBalance)
    ∧ ((runCreditors name d cs).1.map Balance.person = cs.map Balance.person)
    ∧ (∀ p, p ∉ cs.map Balance.person →
        (replayState debts credits (runCreditors name d cs).2.1).2 p = credits p) := by
  induction cs generalizing d debts credits with
  | nil =>
    exact ⟨trivial, hdname, fun p _ => rfl, fun c' hc' => (List.not_mem_nil c' hc').elim,
      rfl, fun p _ => rfl⟩
  | cons c cs ih =>
    have hnd' : (c.person :: cs.map Balance.person).Nodup := by simpa using hnd
    have hndtl : (cs.map Balance.person).Nodup := (List.nodup_cons.mp hnd').2
    have hheadnotin : c.person ∉ cs.map Balance.person := (List.nodup_cons.mp hnd').1
    simp only [runCreditors]
    by_cases h1 : d < 1/100
    · rw [if_pos h1]
      exact ⟨trivial, hdname, fun p _ => rfl, fun c' hc' => hcred c' hc', rfl,
        fun p _ => rfl⟩
    · rw [if_neg h1]
      by_cases h2 : c.netBalance < 1/100
      · rw [if_pos h2]
        obtain ⟨ia, ib, ic, id_, ie, if_⟩ := ih d debts credits hndtl hdname
          (fun c' hc' => hcred c' (List.mem_cons_of_mem c hc'))
        refine ⟨ia, ib, ic, ?_, ?_, ?_⟩
        · intro c' hc'
          rcases List.mem_cons.mp hc' with rfl | hc''
          · rw [if_ c'.person hheadnotin]
            exact hcred c' (List.mem_cons_self _ _)
          · exact id_ c' hc''
        · rw [List.map_cons, List.map_cons, ie]
        · intro p hp
          exact if_ p (fun hm => hp (by simp [hm]))
      · rw [if_neg h2]
        by_cases h3 : (1 : ℚ)/100 ≤ min d c.netBalance
        · rw [if_pos h3]
          obtain ⟨ia, ib, ic, id_, ie, if_⟩ := ih (d - min d c.netBalance)
            (updMap debts name (min d c.netBalance))
            (updMap credits c.person (min d c.netBalance)) hndtl
            (by simp [updMap, hdname])
            (by intro c' hc'
                have hne : c'.person ≠ c.person := by
                  intro he
                  apply hheadnotin
                  rw [← he]
                  exact List.mem_map_of_mem Balance.person hc'
                simp only [updMap, if_neg hne]
                exact hcred c' (List.mem_cons_of_mem c hc'))
          refine ⟨⟨?_, h3, ia⟩, ib, ?_, ?_, ?_, ?_⟩
          · rw [hdname, hcred c (List.mem_cons_self c cs)]
          · intro p hp
            show (replayState (updMap debts name (min d c.netBalance))
                (updMap credits c.person (min d c.netBalance))
                (runCreditors name (d - min d c.netBalance) cs).2.1).1 p = debts p
            rw [ic p hp]
            simp [updMap, hp]
          · intro c' hc'
            rcases List.mem_cons.mp hc' with rfl | hc''
            · show (replayState debts credits _).2 c.person = c.netBalance - _
              rw [show (replayState debts credits
                  (⟨name, c.person, min d c.netBalance⟩ ::
                    (runCreditors name (d - min d c.netBalance) cs).2.1)).2
                = (replayState (updMap debts name (min d c.netBalance))
                    (updMap credits c.person (min d c.netBalance))
                    ((runCreditors name (d - min d c.netBalance) cs).2.1)).2 from rfl,
                if_ c.person hheadnotin]
              simp [updMap, hcred c (List.mem_cons_self c cs)]
            · exact id_ c' hc''
          · rw [List.map_cons, List.map_cons, ie]
          · intro p hp
            have hpc : p ≠ c.person := fun he => hp (by simp [he])
            have hp' : p ∉ cs.map Balance.person := fun hm => hp (by simp [hm])
            show (replayState (updMap debts name (min d c.netBalance))
                (updMap credits c.person (min d c.netBalance))
                (runCreditors name (d - min d c.netBalance) cs).2.1).2 p = credits p
            rw [if_ p hp']
            simp [updMap, hpc]
        · rw [if_neg h3]
          obtain ⟨ia, ib, ic, id_, ie, if_⟩ := ih d debts credits hndtl hdname
            (fun c' hc' => hcred c' (List.mem_cons_of_mem c hc'))
          refine ⟨ia, ib, ic, ?_, ?_, ?_⟩
          · intro c' hc'
            rcases List.mem_cons.mp hc' with rfl | hc''
            · rw [if_ c'.person hheadnotin]
              exact hcred c' (List.mem_cons_self _ _)
            · exact id_ c' hc''
          · rw [List.map_cons, List.map_cons, ie]
          · intro p hp
            exact if_ p (fun hm => hp (by simp [hm]))

theorem runDebtors_replay (ds : List Balance) (cs : List Balance)
    (debts credits : String → ℚ)
    (hndc : (cs.map Balance.person).Nodup)
    (hndd : (ds.map Balance.person).Nodup)
    (hdebts : ∀ d' ∈ ds, debts d'.person = |d'.netBalance|)
    (hcred : ∀ c' ∈ cs, credits c'.person = c'.netBalance) :
    replayOk debts credits (runDebtors ds cs).2 := by
  induction ds generalizing cs debts credits with
  | nil => trivial
  | cons d₁ ds ih =>
    have hndd' : (d₁.person :: ds.map Balance.person).Nodup := by simpa using hndd
    obtain ⟨ha, _, hc, hd, he, _⟩ := runCreditors_replay d₁.person cs |d₁.netBalance|
      debts credits hndc (hdebts d₁ (List.mem_cons_self d₁ ds)) hcred
    show replayOk debts credits
      ((runCreditors d₁.person |d₁.netBalance| cs).2.1
        ++ (runDebtors ds (runCreditors d₁.person |d₁.netBalance| cs).1).2)
    rw [replayOk_append]
    refine ⟨ha, ?_⟩
    apply ih
    · rw [he]
      exact hndc
    · exact (List.nodup_cons.mp hndd').2
    · intro d' hd'
      have hne : d'.person ≠ d₁.person := by
        intro heq
        exact (List.nodup_cons.mp hndd').1
          (heq ▸ List.mem_map_of_mem Balance.person hd')
      rw [hc d'.person hne]
      exact hdebts d' (List.mem_cons_of_mem d₁ hd')
    · exact hd

/-- C2 counterexample: for the balances `[d ↦ −100, c ↦ +50]` the planner
emits the single transfer `d → c` of `50`; applying it leaves `d` at
`−50`, which is not within `0.01` of zero — the claimed settlement
guarantee fails whenever the credits cannot cover the debts. -/
theorem planSettlements_counterexample :
    ¬ (∀ b ∈ applySettlements
        [⟨"d", 0, 0, -100, 0, 0⟩, ⟨"c", 0, 0, 50, 0, 0⟩]
        (planSettlements [⟨"d", 0, 0, -100, 0, 0⟩, ⟨"c", 0, 0, 50, 0, 0⟩]),
        |b.netBalance| ≤ 1/100) := by
  intro hall
  have hplan : planSettlements [⟨"d", 0, 0, -100, 0, 0⟩, ⟨"c", 0, 0, 50, 0, 0⟩]
      = [⟨"d", "c", 50⟩] := by
    simp only [planSettlements, sortStable, List.foldl, List.filter]
    norm_num
    simp only [insertStable, runDebtors, runCreditors]
    norm_num
  have happ : applySettlements [⟨"d", 0, 0, -100, 0, 0⟩, ⟨"c", 0, 0, 50, 0, 0⟩]
      (planSettlements [⟨"d", 0, 0, -100, 0, 0⟩, ⟨"c", 0, 0, 50, 0, 0⟩])
      = [⟨"d", 0, 0, -50, 0, 0⟩, ⟨"c", 0, 0, 0, 0, 0⟩] := by
    rw [hplan]
    simp only [applySettlements, List.foldl, List.map]
    norm_num
    decide
  have hd := hall ⟨"d", 0, 0, -50, 0, 0⟩ (by rw [happ]; exact List.mem_cons_self _ _)
  norm_num at hd

/-- C2 amended: on a balance list with duplicate-free person names, every
transfer emitted by the settlement planner has amount at least `0.01` and
equals `min(remaining debt of its debtor, remaining credit of its
creditor)` when the transfer list is replayed against the balances'
initial deficits and surpluses; driving every balance to within `0.01` of
zero is, however, not guaranteed. -/
theorem planSettlements_spec (balances : List Balance)
    (hnd : (balances.map Balance.person).Nodup) :
    replayOk (initDebts balances) (initCredits balances) (planSettlements balances)
    ∧ ∀ t ∈ planSettlements balances, 1/100 ≤ t.amount := by
  have hsubd : ∀ b ∈ balances.filter (fun b => b.netBalance < -(1/100)), b ∈ balances :=
    fun b hb => (List.mem_filter.mp hb).1
  have hndd : ((sortStable (fun a b => a.netBalance < b.netBalance)
      (balances.filter (fun b => b.netBalance < -(1/100)))).map Balance.person).Nodup := by
    have hperm := (sortStable_perm (fun a b => decide (a.netBalance < b.netBalance))
      (balances.filter (fun b => b.netBalance < -(1/100)))).map Balance.person
    rw [List.Perm.nodup_iff hperm]
    exact hnd.sublist ((List.filter_sublist balances).map Balance.person)
  have hndc : ((sortStable (fun a b => b.netBalance < a.netBalance)
      (balances.filter (fun b => b.netBalance > 1/100))).map Balance.person).Nodup := by
    have hperm := (sortStable_perm (fun a b => decide (b.netBalance < a.netBalance))
      (balances.filter (fun b => b.netBalance > 1/100))).map Balance.person
    rw [List.Perm.nodup_iff hperm]
    exact hnd.sublist ((List.filter_sublist balances).map Balance.person)
  have hmain : replayOk (initDebts balances) (initCredits balances)
      (planSettlements balances) := by
    show replayOk (initDebts balances) (initCredits balances)
      (runDebtors
        (sortStable (fun a b => a.netBalance < b.netBalance)
          (balances.filter (fun b => b.netBalance < -(1/100))))
        (sortStable (fun a b => b.netBalance < a.netBalance)
          (balances.filter (fun b => b.netBalance > 1/100)))).2
    apply runDebtors_replay _ _ _ _ hndc hndd
    · intro d' hd'
      have hmem : d' ∈ balances.filter (fun b => b.netBalance < -(1/100)) :=
        ((sortStable_perm _ _).mem_iff).mp hd'
      have hprop : d'.netBalance < -(1/100) := by
        have := (List.mem_filter.mp hmem).2
        simpa using this
      exact initDebts_eq balances d' hnd (hsubd d' hmem) hprop
    · intro c' hc'
      have hmem : c' ∈ balances.filter (fun b => b.netBalance > 1/100) :=
        ((sortStable_perm _ _).mem_iff).mp hc'
      have hprop : c'.netBalance > 1/100 := by
        have := (List.mem_filter.mp hmem).2
        simpa using this
      exact initCredits_eq balances c' hnd ((List.mem_filter.mp hmem).1) hprop
  exact ⟨hmain, replayOk_amount_ge _ _ _ hmain⟩

/-- Witness for C2 amended at the counterexample balances (the replay
property holds there even though the within-0.01 guarantee does not). -/
theorem planSettlements_spec_witness :
    ((([⟨"d", 0, 0, -100, 0, 0⟩, ⟨"c", 0, 0, 50, 0, 0⟩] : List Balance)).map
        Balance.person).Nodup
    ∧ replayOk (initDebts [⟨"d", 0, 0, -100, 0, 0⟩, ⟨"c", 0, 0, 50, 0, 0⟩])
        (initCredits [⟨"d", 0, 0, -100, 0, 0⟩, ⟨"c", 0, 0, 50, 0, 0⟩])
        (planSettlements [⟨"d", 0, 0, -100, 0, 0⟩, ⟨"c", 0, 0, 50, 0, 0⟩]) :=
  ⟨by decide,
   (planSettlements_spec [⟨"d", 0, 0, -100, 0, 0⟩, ⟨"c", 0, 0, 50, 0, 0⟩]
     (by decide)).1⟩

end TripSplitter
